import Mathlib

/-!
Verification of the shared scanning/pattern core of the AIDevWorkflow repository
(`PatternMatcher`, ignore rules, `FileReader`, `DirectoryScanner`).

Strings are embedded as `List Char` (`Str`).  JavaScript string methods used by
the source (`replace` with a global literal regex, `split`, `trim`,
`toLowerCase`, `slice`, `lastIndexOf`) are given explicit executable models.
The JavaScript regular expressions produced by `globToRegex` are parsed into a
small regex AST covering the fragment the translator can emit (literals,
escapes, `.`, character classes, postfix `*`/`+`/`?`) and matched with
Brzozowski derivatives; `matchGlobPattern` anchors the expression on both
sides, which is modelled by whole-string matching.  A parse failure models the
thrown `PatternError`, so pattern matching returns `Option Bool`.

The filesystem is abstracted: `readFile` consults a map from paths to file
data, and the scanner walks an explicit tree of entries (the order of the
entry list models the order returned by `fs.readdirSync`).
-/

abbrev Str := List Char

/-! ### JavaScript string primitives -/

/-- Whitespace for the model of `String.prototype.trim`. -/
def isJsSpace (c : Char) : Bool :=
  c = ' ' ∨ c = '\t' ∨ c = '\n' ∨ c = '\r' ∨ c = '\x0b' ∨ c = '\x0c'

/-- Model of `s.trim()`. -/
def jsTrim (s : Str) : Str :=
  ((s.dropWhile isJsSpace).reverse.dropWhile isJsSpace).reverse

/-- ASCII lowercasing, the fragment of `toLowerCase` the inputs exercise. -/
def lowerAscii (c : Char) : Char :=
  if 'A' ≤ c ∧ c ≤ 'Z' then Char.ofNat (c.toNat + 32) else c

/-- Model of `s.toLowerCase()` on ASCII strings. -/
def jsToLowerStr (s : Str) : Str := s.map lowerAscii

/-- Model of `s.split(sep)` for a single-character separator: empty fields are
kept, and the empty string splits to `[""]`. -/
def splitChar (sep : Char) : Str → List Str
  | [] => [[]]
  | c :: cs =>
    if c = sep then [] :: splitChar sep cs
    else
      match splitChar sep cs with
      | [] => [[c]]
      | s :: rest => (c :: s) :: rest

/-- Model of `s.replace(pat, rep)` where `pat` is a global regex matching a
single literal character: every occurrence is replaced, left to right, and
scanning resumes after the replacement text. -/
def replace1 (p : Char) (rep : Str) : Str → Str
  | [] => []
  | c :: cs => if c = p then rep ++ replace1 p rep cs else c :: replace1 p rep cs

/-- Model of `s.replace(pat, rep)` where `pat` is a global regex matching the
two-character literal `p, q`: leftmost non-overlapping occurrences are
replaced and scanning resumes after the replacement text. -/
def replace2 (p q : Char) (rep : Str) : Str → Str
  | [] => []
  | [c] => [c]
  | c :: d :: cs =>
    if c = p ∧ d = q then rep ++ replace2 p q rep cs
    else c :: replace2 p q rep (d :: cs)

/-! ### PatternMatcher.globToRegex

Source (`src/utils/patterns/patternMatcher.ts`):
```
return pattern
    .replace(/[.]/g, '\\.')   // Escape dots
    .replace(/\*\*/ g, '.*')  // ** matches anything
    .replace(/\*/g, '[^/]*')  // * matches anything except path separator
    .replace(/\?/g, '.');     // ? matches any single character
```
-/

def globToRegex (pattern : Str) : Str :=
  replace1 '?' ['.']
    (replace1 '*' ('[' :: '^' :: '/' :: ']' :: '*' :: [])
      (replace2 '*' '*' ('.' :: '*' :: [])
        (replace1 '.' ('\\' :: '.' :: []) pattern)))

/-! ### A regex AST with Brzozowski-derivative matching -/

inductive Reg where
  | emptyS : Reg
  | epsilon : Reg
  | lit : Char → Reg
  | anyChar : Reg
  | cls : Bool → Str → Reg
  | seq : Reg → Reg → Reg
  | alt : Reg → Reg → Reg
  | star : Reg → Reg
deriving Repr, DecidableEq

def nullable : Reg → Bool
  | Reg.emptyS => false
  | Reg.epsilon => true
  | Reg.lit _ => false
  | Reg.anyChar => false
  | Reg.cls _ _ => false
  | Reg.seq a b => nullable a && nullable b
  | Reg.alt a b => nullable a || nullable b
  | Reg.star _ => true

/-- JavaScript `.` matches everything except line terminators. -/
def isLineTerm (c : Char) : Bool :=
  c = '\n' ∨ c = '\r' ∨ c = Char.ofNat 0x2028 ∨ c = Char.ofNat 0x2029

def rderiv : Reg → Char → Reg
  | Reg.emptyS, _ => Reg.emptyS
  | Reg.epsilon, _ => Reg.emptyS
  | Reg.lit c, x => if x = c then Reg.epsilon else Reg.emptyS
  | Reg.anyChar, x => if isLineTerm x then Reg.emptyS else Reg.epsilon
  | Reg.cls neg cs, x => if cs.contains x ≠ neg then Reg.epsilon else Reg.emptyS
  | Reg.seq a b, x =>
    if nullable a then Reg.alt (Reg.seq (rderiv a x) b) (rderiv b x)
    else Reg.seq (rderiv a x) b
  | Reg.alt a b, x => Reg.alt (rderiv a x) (rderiv b x)
  | Reg.star a, x => Reg.seq (rderiv a x) (Reg.star a)

/-- Whole-string matching: used to model `new RegExp('^' + r + '$').test(s)`. -/
def rmatch (r : Reg) (s : Str) : Bool := nullable (s.foldl rderiv r)

/-! ### Parsing the regex strings produced by `globToRegex`

The parser covers the fragment of JavaScript regex syntax that arises from
the translator and from the plain patterns the theorems below quantify over.
Constructs outside the fragment (groups, alternation, anchors inside the
body, quantifiers with nothing to repeat, `\` before an alphanumeric) make
the parser return `none`, which models a thrown `PatternError`. -/

def parseClassBody : Str → Option (Str × Str)
  | [] => none
  | ']' :: rest => some ([], rest)
  | c :: rest => (parseClassBody rest).map (fun pr => (c :: pr.1, pr.2))

def parseAtom : Str → Option (Reg × Str)
  | [] => none
  | c :: rest =>
    if c = '\\' then
      match rest with
      | [] => none
      | d :: rest2 => if d.isAlphanum then none else some (Reg.lit d, rest2)
    else if c = '.' then some (Reg.anyChar, rest)
    else if c = '[' then
      match rest with
      | '^' :: rest2 => (parseClassBody rest2).map (fun pr => (Reg.cls true pr.1, pr.2))
      | _ => (parseClassBody rest).map (fun pr => (Reg.cls false pr.1, pr.2))
    else if c = '(' ∨ c = ')' ∨ c = '|' ∨ c = '^' ∨ c = '$' ∨ c = '*' ∨ c = '+' ∨ c = '?' then
      none
    else some (Reg.lit c, rest)

/-- Fuelled sequence parser; one unit of fuel is spent per parsed atom and at
least one input character is consumed per atom, so `s.length` fuel always
suffices (see `parseRe`). -/
def parseReF : Nat → Str → Option Reg
  | _, [] => some Reg.epsilon
  | 0, _ :: _ => none
  | Nat.succ fuel, c :: rest =>
    match parseAtom (c :: rest) with
    | none => none
    | some (a, r2) =>
      if r2.head? = some '*' then
        (parseReF fuel r2.tail).map (fun t => Reg.seq (Reg.star a) t)
      else if r2.head? = some '+' then
        (parseReF fuel r2.tail).map (fun t => Reg.seq (Reg.seq a (Reg.star a)) t)
      else if r2.head? = some '?' then
        (parseReF fuel r2.tail).map (fun t => Reg.seq (Reg.alt Reg.epsilon a) t)
      else
        (parseReF fuel r2).map (fun t => Reg.seq a t)

def parseRe (s : Str) : Option Reg := parseReF s.length s

/-! ### PatternMatcher -/

structure FilePattern where
  pattern : Str
  isRegex : Bool
deriving Repr, DecidableEq

/-- `matchGlobPattern(path, pattern)`: translate the glob, anchor it with
`^...$` (modelled by whole-string matching) and test; `none` models the
thrown `PatternError`. -/
def matchGlobPattern (path pattern : Str) : Option Bool :=
  (parseRe (globToRegex pattern)).map (fun r => rmatch r path)

/-- A prefix of `t` matches `r`. -/
def prefixMatch (r : Reg) (t : Str) : Bool :=
  (List.range (t.length + 1)).any (fun j => rmatch r (t.take j))

/-- Unanchored `RegExp.test`: some substring matches. -/
def searchMatch (r : Reg) (s : Str) : Bool :=
  (List.range (s.length + 1)).any (fun i => prefixMatch r (s.drop i))

/-- `matchRegexPattern(path, pattern)`: compile the pattern directly and test
(unanchored). -/
def matchRegexPattern (path pattern : Str) : Option Bool :=
  (parseRe pattern).map (fun r => searchMatch r path)

/-- `matchPattern(path, filePattern)`: dispatch on `isRegex`. -/
def matchPattern (path : Str) (p : FilePattern) : Option Bool :=
  if p.isRegex then matchRegexPattern path p.pattern else matchGlobPattern path p.pattern

/-- `matchAnyPattern(path, patterns)`: `Array.prototype.some`, short-circuiting
on the first match; a thrown `PatternError` (`none`) propagates. -/
def matchAnyPattern (path : Str) : List FilePattern → Option Bool
  | [] => some false
  | p :: ps =>
    match matchPattern path p with
    | none => none
    | some true => some true
    | some false => matchAnyPattern path ps

/-- `createPattern(pattern, isRegex)`: strips one leading `./`
(`pattern.replace(/^\.\//, '')`). -/
def createPattern (pattern : Str) (isRegex : Bool) : FilePattern :=
  match pattern with
  | '.' :: '/' :: rest => { pattern := rest, isRegex := isRegex }
  | p => { pattern := p, isRegex := isRegex }

/-- `parsePatternInput(content)`: blank input yields the `**/*` catch-all;
otherwise each trimmed, non-empty, non-`#` line is `pattern[,type]` with
`regex` (case-insensitive) selecting regex mode. -/
def parsePatternInput (content : Str) : List FilePattern :=
  if jsTrim content = [] then [createPattern "**/*".data false]
  else
    (((splitChar '\n' content).map jsTrim).filter
        (fun line => !(line == []) && !(line.head? == some '#'))).map
      (fun line =>
        let parts := (splitChar ',' line).map jsTrim
        let pat := parts.headD []
        let typeStr := (parts.drop 1).headD "simple".data
        createPattern pat (jsToLowerStr typeStr == "regex".data))

/-! ### Ignore rules (`src/utils/patterns/ignorePatterns.ts`)

JavaScript `Set<string>` values are modelled as lists; only exact membership
(`Set.prototype.has`) is ever used. -/

def DEFAULT_IGNORE_PATTERNS : List Str :=
  ["node_modules", "dist", "build", "coverage", ".git", ".cache", ".next",
   "__pycache__", ".DS_Store", "package-lock.json"].map String.data

def DEFAULT_INCLUDE_EXTENSIONS : List Str :=
  [".ts", ".tsx", ".js", ".jsx", ".json", ".md", ".txt"].map String.data

structure IgnoreOptions where
  additionalIgnorePatterns : List Str
  extendDefaults : Bool
  additionalExtensions : List Str
  extendExtensions : Bool
deriving Repr, DecidableEq

/-- The `IgnoreOptions` value whose fields all take their source defaults. -/
def defaultIgnoreOptions : IgnoreOptions :=
  { additionalIgnorePatterns := [], extendDefaults := true,
    additionalExtensions := [], extendExtensions := true }

def createIgnorePatterns (o : IgnoreOptions) : List Str :=
  if o.extendDefaults = false then o.additionalIgnorePatterns
  else DEFAULT_IGNORE_PATTERNS ++ o.additionalIgnorePatterns

def createIncludeExtensions (o : IgnoreOptions) : List Str :=
  if o.extendExtensions = false then o.additionalExtensions
  else DEFAULT_INCLUDE_EXTENSIONS ++ o.additionalExtensions

/-- Model of `path.split(/[\\/]/)`: split on either separator, keeping empty
segments, as the JavaScript `split` does. -/
def splitSeps : Str → List Str
  | [] => [[]]
  | c :: cs =>
    if c = '/' ∨ c = '\\' then [] :: splitSeps cs
    else
      match splitSeps cs with
      | [] => [[c]]
      | s :: rest => (c :: s) :: rest

/-- `shouldIgnorePath(path, ignorePatterns)`:
`path.split(/[\\/]/).some(part => ignorePatterns.has(part))`. -/
def shouldIgnorePath (path : Str) (ignorePatterns : List Str) : Bool :=
  (splitSeps path).any (fun part => ignorePatterns.contains part)

/-- Model of `s.lastIndexOf(c)`: the index of the last occurrence, `-1` when
absent. -/
def jsLastIndexOf (c : Char) (s : Str) : Int :=
  match s.reverse.findIdx? (fun d => d = c) with
  | none => -1
  | some j => (s.length : Int) - 1 - (j : Int)

/-- Model of `s.slice(i)` for a possibly negative start index. -/
def jsSlice (s : Str) (i : Int) : Str :=
  if i < 0 then s.drop ((s.length : Int) + i).toNat else s.drop i.toNat

/-- `shouldIncludeFile(path, includeExtensions)`:
`includeExtensions.has(path.slice(path.lastIndexOf('.')))`. -/
def shouldIncludeFile (path : Str) (includeExtensions : List Str) : Bool :=
  includeExtensions.contains (jsSlice path (jsLastIndexOf '.' path))

/-! ### PathUtils models

These functions wrap Node's `path` library; they are modelled for the way the
scanner invokes them (forward-slash joined paths below a root directory). -/

/-- Model of `path.join(dir, name)` for plain segments. -/
def joinPath (dir name : Str) : Str :=
  if dir = [] then name else dir ++ '/' :: name

/-- Model of `path.basename`: the last `/`-separated segment. -/
def basename (p : Str) : Str := (splitChar '/' p).getLastD []

/-- Model of `PathUtils.getRelativePath` (Node `path.relative` plus
normalisation) for paths built by joining names under the root. -/
def getRelativePath (filepath rootDir : Str) : Str :=
  if rootDir.isPrefixOf filepath then
    (filepath.drop rootDir.length).dropWhile (fun c => c = '/')
  else filepath

/-- Model of `PathUtils.getExtension` (`path.extname` lower-cased): the suffix
of the basename from its last dot, empty for dotless names and dotfiles. -/
def getExtension (p : Str) : Str :=
  let base := basename p
  let i := jsLastIndexOf '.' base
  if i ≤ 0 then [] else (jsSlice base i).map lowerAscii

/-! ### FileReader (`src/utils/fs/fileReader.ts`) -/

/-- Abstract file contents: `size` models `fs.statSync(..).size`, `readOk`
models whether `fs.readFileSync` succeeds on the file. -/
structure FSFile where
  size : Nat
  content : Str
  readOk : Bool
deriving Repr, DecidableEq

/-- The `FileReadError`s `readFile` can produce, with the data their messages
carry: a missing path, a file whose size exceeds the maximum (the message
names both the actual and the maximum size), or a read fault. -/
inductive FileErr where
  | doesNotExist : Str → FileErr
  | sizeExceeded : Str → Nat → Nat → FileErr
  | readFault : Str → FileErr
deriving Repr, DecidableEq

structure FileReadResult where
  content : Str
  tokenCount : Option Nat
  error : Option FileErr
deriving Repr, DecidableEq

/-- Options for `readFile`; `none` models an absent key, a present key with
value `undefined` is modelled by `some false` / by the default for `maxSize`
(the spread `{...DEFAULT_OPTIONS, ...options}` makes an absent key fall back
to the default). -/
structure ReadOptions where
  calculateTokens : Option Bool
  maxSize : Option Nat
deriving Repr, DecidableEq

def DEFAULT_MAX_SIZE : Nat := 10 * 1024 * 1024

/-- `Math.ceil(content.length / 4)` on a natural-number length. -/
def calculateTokens (content : Str) : Nat := (content.length + 3) / 4

/-- `FileReader.readFile`: validate existence, check the size ceiling, read,
optionally count tokens; every failure is caught and returned in `error`
(with `content` set to the empty string), never thrown. -/
def readFile (fsm : Str → Option FSFile) (filepath : Str) (opts : ReadOptions) :
    FileReadResult :=
  let calcTok := opts.calculateTokens.getD true
  let maxSize := opts.maxSize.getD DEFAULT_MAX_SIZE
  match fsm filepath with
  | none =>
    { content := [], tokenCount := none, error := some (FileErr.doesNotExist filepath) }
  | some f =>
    if f.size > maxSize then
      { content := [], tokenCount := none,
        error := some (FileErr.sizeExceeded filepath f.size maxSize) }
    else if f.readOk = false then
      { content := [], tokenCount := none, error := some (FileErr.readFault filepath) }
    else
      { content := f.content,
        tokenCount := if calcTok then some (calculateTokens f.content) else none,
        error := none }

/-! ### The scanner's name comparator

`scanDirectory` sorts children with
`children.sort((a, b) => a.name.localeCompare(b.name))`.
`String.prototype.localeCompare` is locale-aware; under Node's default ICU
root collation, ASCII letters compare case-insensitively at the primary
level and, for otherwise-equal strings, lowercase sorts before uppercase.
That ordering is modelled here by a collation key: the lower-cased
code points (shifted by one so that the `0` separator sorts below every
character), a separator, then one case bit per character (`0` for
non-uppercase, `1` for uppercase), compared lexicographically. -/

def keyLe : List Nat → List Nat → Bool
  | [], _ => true
  | _ :: _, [] => false
  | a :: as, b :: bs => if a < b then true else if b < a then false else keyLe as bs

def collKey (s : Str) : List Nat :=
  s.map (fun c => (lowerAscii c).toNat + 1) ++ 0 :: s.map (fun c => if c.isUpper then 1 else 0)

/-- Model of `a.localeCompare(b) <= 0` under the default ICU collation on
ASCII strings. -/
def localeLe (a b : Str) : Bool := keyLe (collKey a) (collKey b)

/-- Case-sensitive code-unit lexical order on strings — the order the spec
asserts for `scan()`'s children lists. -/
def codeUnitLe : Str → Str → Bool
  | [], _ => true
  | _ :: _, [] => false
  | a :: as, b :: bs => if a < b then true else if a = b then codeUnitLe as bs else false

/-! ### DirectoryScanner (`src/utils/fs/directoryScanner.ts`) -/

/-- The union type `FileNode | DirectoryNode` of the source, as one inductive:
`file name path fullPath content tokenCount extension` and
`dir name path fullPath children`. -/
inductive Node where
  | file : Str → Str → Str → Str → Option Nat → Str → Node
  | dir : Str → Str → Str → List Node → Node

def Node.name : Node → Str
  | Node.file n _ _ _ _ _ => n
  | Node.dir n _ _ _ => n

def Node.isDir : Node → Bool
  | Node.file _ _ _ _ _ _ => false
  | Node.dir _ _ _ _ => true

def Node.childrenOf : Node → List Node
  | Node.file _ _ _ _ _ _ => []
  | Node.dir _ _ _ c => c

/-- The sort relation used on a directory's children. -/
def nodeLe (a b : Node) : Prop := localeLe a.name b.name = true

instance : DecidableRel nodeLe := fun _ _ => instDecidableEqBool _ _

mutual
/-- A directory entry as returned by `fs.readdirSync(dir, withFileTypes)`:
either a file (with its on-disk data) or a subdirectory with its own entry
list.  The list order models the order the OS returns. -/
inductive FSEntry where
  | file : Str → FSFile → FSEntry
  | dir : Str → FSEntryList → FSEntry
/-- The entry list, as a dedicated mutual type so that the scanner's nested
recursion is structural. -/
inductive FSEntryList where
  | nil : FSEntryList
  | cons : FSEntry → FSEntryList → FSEntryList
end

structure ScannerOptions extends IgnoreOptions where
  includePatterns : List FilePattern
  calculateTokens : Option Bool
  rootDir : Str
deriving Repr, DecidableEq

/-- The resolved state of a `DirectoryScanner` instance. -/
structure Scanner where
  ignorePatterns : List Str
  includeExtensions : List Str
  includePatterns : List FilePattern
  calculateTokens : Option Bool
  rootDir : Str
deriving Repr, DecidableEq

/-- The `DirectoryScanner` constructor. -/
def mkScanner (o : ScannerOptions) : Scanner :=
  { ignorePatterns := createIgnorePatterns o.toIgnoreOptions,
    includeExtensions := createIncludeExtensions o.toIgnoreOptions,
    includePatterns := o.includePatterns,
    calculateTokens := o.calculateTokens,
    rootDir := o.rootDir }

/-- `shouldProcessFile`: ignore check, then extension check, then (only when
include patterns were supplied) a pattern match on the root-relative path.
`none` models a propagated `PatternError`. -/
def shouldProcessFile (sc : Scanner) (filepath : Str) : Option Bool :=
  if shouldIgnorePath filepath sc.ignorePatterns then some false
  else if shouldIncludeFile filepath sc.includeExtensions = false then some false
  else if sc.includePatterns.isEmpty then some true
  else matchAnyPattern (getRelativePath filepath sc.rootDir) sc.includePatterns

/-- `createFileNode`: read the file (passing only the `calculateTokens` key,
so `maxSize` falls back to the `FileReader` default, and an `undefined`
scanner option makes the effective flag falsy); a read error is logged and
yields `null` (`none`). -/
def createFileNode (sc : Scanner) (filepath : Str) (data : FSFile) : Option Node :=
  let res := readFile (fun q => if q = filepath then some data else none) filepath
    { calculateTokens := some (sc.calculateTokens.getD false), maxSize := none }
  match res.error with
  | some _ => none
  | none =>
    some (Node.file (basename filepath) (getRelativePath filepath sc.rootDir) filepath
      res.content res.tokenCount (getExtension filepath))

/-- Assemble the `DirectoryNode` for `dirPath`: children are sorted by name
with the `localeCompare` comparator before being attached. -/
def mkDirNode (sc : Scanner) (dirPath : Str) (children : List Node) : Node :=
  Node.dir (basename dirPath) (getRelativePath dirPath sc.rootDir) dirPath
    (children.insertionSort nodeLe)

/-- The entry loop of `scanDirectory`: ignored paths are skipped before
descending, a recursively scanned subdirectory is kept only when it has at
least one child, files pass `shouldProcessFile` and `createFileNode`, and a
per-file failure skips just that entry.  `none` models a propagated error
(a `PatternError` surfacing as the directory-level `DirectoryError`); every
internal `none` propagates to the top, so a `some` result is a complete
scan. -/
def scanList (sc : Scanner) (dirPath : Str) : FSEntryList → Option (List Node)
  | FSEntryList.nil => some []
  | FSEntryList.cons (FSEntry.file name data) es =>
    if shouldIgnorePath (joinPath dirPath name) sc.ignorePatterns then
      scanList sc dirPath es
    else
      match shouldProcessFile sc (joinPath dirPath name) with
      | none => none
      | some false => scanList sc dirPath es
      | some true =>
        match createFileNode sc (joinPath dirPath name) data with
        | none => scanList sc dirPath es
        | some n => (scanList sc dirPath es).map (fun l => n :: l)
  | FSEntryList.cons (FSEntry.dir name subs) es =>
    if shouldIgnorePath (joinPath dirPath name) sc.ignorePatterns then
      scanList sc dirPath es
    else
      match scanList sc (joinPath dirPath name) subs with
      | none => none
      | some subChildren =>
        let subNode := mkDirNode sc (joinPath dirPath name) subChildren
        if subNode.childrenOf.isEmpty then scanList sc dirPath es
        else (scanList sc dirPath es).map (fun l => subNode :: l)

/-- `scanDirectory(dirPath)` over the given entry list. -/
def scanDirNode (sc : Scanner) (dirPath : Str) (entries : FSEntryList) : Option Node :=
  (scanList sc dirPath entries).map (mkDirNode sc dirPath)

/-- `scan()`: scan the configured root. -/
def scan (sc : Scanner) (rootEntries : FSEntryList) : Option Node :=
  scanDirNode sc sc.rootDir rootEntries

/-! ### Helper notions and lemmas for the pattern-matcher theorems -/

/-- Characters free of regular-expression metacharacters other than the dot
(which `globToRegex` escapes) and of glob wildcards.  `Char.ofNat 123` and
`Char.ofNat 125` are the curly braces. -/
def regexSpecialChars : Str :=
  ['*', '?', '\\', '[', ']', '(', ')', '|', '^', '$', '+', Char.ofNat 123, Char.ofNat 125]

def plainChar (c : Char) : Bool := !(regexSpecialChars.contains c)

/-- The regex denoting the literal character sequence `l`. -/
def litSeq : Str → Reg
  | [] => Reg.epsilon
  | c :: cs => Reg.seq (Reg.lit c) (litSeq cs)

theorem rmatch_nil (r : Reg) : rmatch r [] = nullable r := rfl

theorem rmatch_cons (r : Reg) (c : Char) (s : Str) :
    rmatch r (c :: s) = rmatch (rderiv r c) s := rfl

theorem rmatch_emptyS : ∀ s : Str, rmatch Reg.emptyS s = false
  | [] => rfl
  | c :: s => by rw [rmatch_cons]; exact rmatch_emptyS s

theorem rmatch_alt : ∀ (s : Str) (a b : Reg),
    rmatch (Reg.alt a b) s = (rmatch a s || rmatch b s)
  | [], _, _ => rfl
  | c :: s, a, b => by rw [rmatch_cons]; exact rmatch_alt s (rderiv a c) (rderiv b c)

theorem rmatch_seq_emptyS : ∀ (s : Str) (r : Reg), rmatch (Reg.seq Reg.emptyS r) s = false
  | [], _ => rfl
  | c :: s, r => by rw [rmatch_cons]; exact rmatch_seq_emptyS s r

theorem rmatch_seq_epsilon (s : Str) (r : Reg) :
    rmatch (Reg.seq Reg.epsilon r) s = rmatch r s := by
  cases s with
  | nil => rfl
  | cons c s =>
    rw [rmatch_cons, show rderiv (Reg.seq Reg.epsilon r) c
          = Reg.alt (Reg.seq Reg.emptyS r) (rderiv r c) from rfl,
        rmatch_alt, rmatch_seq_emptyS]
    rw [Bool.false_or]
    rfl

theorem rmatch_litSeq : ∀ l s : Str, rmatch (litSeq l) s = (s == l) := by
  intro l
  induction l with
  | nil =>
    intro s
    cases s with
    | nil => rfl
    | cons c s => rw [show litSeq [] = Reg.epsilon from rfl, rmatch_cons,
        show rderiv Reg.epsilon c = Reg.emptyS from rfl, rmatch_emptyS]
                  simp
  | cons c cs ih =>
    intro s
    cases s with
    | nil => simp [litSeq, rmatch_nil, nullable]
    | cons y ys =>
      rw [show litSeq (c :: cs) = Reg.seq (Reg.lit c) (litSeq cs) from rfl, rmatch_cons]
      by_cases hyc : y = c
      · rw [show rderiv (Reg.seq (Reg.lit c) (litSeq cs)) y
              = Reg.seq (if y = c then Reg.epsilon else Reg.emptyS) (litSeq cs) from rfl,
            if_pos hyc, rmatch_seq_epsilon, ih ys]
        simp [hyc]
      · rw [show rderiv (Reg.seq (Reg.lit c) (litSeq cs)) y
              = Reg.seq (if y = c then Reg.epsilon else Reg.emptyS) (litSeq cs) from rfl,
            if_neg hyc, rmatch_seq_emptyS]
        simp [hyc]

theorem replace1_of_not_mem (p : Char) (rep : Str) :
    ∀ s : Str, p ∉ s → replace1 p rep s = s := by
  intro s
  induction s with
  | nil => intro _; rfl
  | cons c cs ih =>
    intro h
    have hc : c ≠ p := fun hcp => h (hcp ▸ List.mem_cons_self c cs)
    have hcs : p ∉ cs := fun hm => h (List.mem_cons_of_mem c hm)
    simp [replace1, hc, ih hcs]

theorem replace2_of_not_mem (p q : Char) (rep : Str) :
    ∀ s : Str, p ∉ s → replace2 p q rep s = s := by
  intro s
  induction s using replace2.induct p q rep with
  | case1 => intro _; rfl
  | case2 c => intro _; rfl
  | case3 c d cs hpq ih =>
    intro h
    exact absurd (hpq.1 ▸ List.mem_cons_self c (d :: cs)) h
  | case4 c d cs hpq ih =>
    intro h
    have hcs : p ∉ d :: cs := fun hm => h (List.mem_cons_of_mem c hm)
    simp [replace2, hpq, ih hcs]

theorem mem_replace1_dots : ∀ s : Str, ∀ c ∈ replace1 '.' ('\\' :: '.' :: []) s,
    c = '\\' ∨ c = '.' ∨ c ∈ s := by
  intro s
  induction s with
  | nil => intro c hc; exact absurd hc (List.not_mem_nil c)
  | cons a as ih =>
    intro c hc
    by_cases ha : a = '.'
    · rw [show replace1 '.' ('\\' :: '.' :: []) (a :: as)
            = if a = '.' then ('\\' :: '.' :: []) ++ replace1 '.' ('\\' :: '.' :: []) as
              else a :: replace1 '.' ('\\' :: '.' :: []) as from rfl, if_pos ha] at hc
      rcases List.mem_append.mp hc with h | h
      · rcases List.mem_cons.mp h with h' | h'
        · exact Or.inl h'
        · rcases List.mem_cons.mp h' with h'' | h''
          · exact Or.inr (Or.inl h'')
          · exact absurd h'' (List.not_mem_nil c)
      · rcases ih c h with h' | h' | h'
        · exact Or.inl h'
        · exact Or.inr (Or.inl h')
        · exact Or.inr (Or.inr (List.mem_cons_of_mem a h'))
    · rw [show replace1 '.' ('\\' :: '.' :: []) (a :: as)
            = if a = '.' then ('\\' :: '.' :: []) ++ replace1 '.' ('\\' :: '.' :: []) as
              else a :: replace1 '.' ('\\' :: '.' :: []) as from rfl, if_neg ha] at hc
      rcases List.mem_cons.mp hc with h | h
      · exact Or.inr (Or.inr (h ▸ List.mem_cons_self a as))
      · rcases ih c h with h' | h' | h'
        · exact Or.inl h'
        · exact Or.inr (Or.inl h')
        · exact Or.inr (Or.inr (List.mem_cons_of_mem a h'))

/-- On patterns made of plain characters, `globToRegex` only escapes dots. -/
theorem globToRegex_plain (pattern : Str) (hp : ∀ c ∈ pattern, plainChar c = true) :
    globToRegex pattern = replace1 '.' ('\\' :: '.' :: []) pattern := by
  have hchars : ∀ c ∈ replace1 '.' ('\\' :: '.' :: []) pattern,
      c = '\\' ∨ c = '.' ∨ c ∈ pattern := mem_replace1_dots pattern
  have hwild_not : ∀ d : Char, d = '*' ∨ d = '?' →
      d ∉ replace1 '.' ('\\' :: '.' :: []) pattern := by
    intro d hd hmem
    rcases hchars d hmem with h | h | h
    · rcases hd with h' | h' <;> (subst h'; exact absurd h (by decide))
    · rcases hd with h' | h' <;> (subst h'; exact absurd h (by decide))
    · have hpd := hp d h
      rcases hd with h' | h' <;> (subst h'; revert hpd; decide)
  have h1 : replace2 '*' '*' ('.' :: '*' :: []) (replace1 '.' ('\\' :: '.' :: []) pattern)
      = replace1 '.' ('\\' :: '.' :: []) pattern :=
    replace2_of_not_mem _ _ _ _ (hwild_not '*' (Or.inl rfl))
  have h2 : replace1 '*' ('[' :: '^' :: '/' :: ']' :: '*' :: [])
        (replace1 '.' ('\\' :: '.' :: []) pattern)
      = replace1 '.' ('\\' :: '.' :: []) pattern :=
    replace1_of_not_mem _ _ _ (hwild_not '*' (Or.inl rfl))
  have h3 : replace1 '?' ['.'] (replace1 '.' ('\\' :: '.' :: []) pattern)
      = replace1 '.' ('\\' :: '.' :: []) pattern :=
    replace1_of_not_mem _ _ _ (hwild_not '?' (Or.inr rfl))
  rw [globToRegex, h1, h2, h3]

theorem head_replace1_dots (cs : Str) (hp : ∀ c ∈ cs, plainChar c = true) :
    (replace1 '.' ('\\' :: '.' :: []) cs).head? ≠ some '*' ∧
    (replace1 '.' ('\\' :: '.' :: []) cs).head? ≠ some '+' ∧
    (replace1 '.' ('\\' :: '.' :: []) cs).head? ≠ some '?' := by
  cases cs with
  | nil => refine ⟨?_, ?_, ?_⟩ <;> simp [replace1]
  | cons a as =>
    have hpa := hp a (List.mem_cons_self a as)
    by_cases ha : a = '.'
    · subst ha
      refine ⟨?_, ?_, ?_⟩ <;> simp [replace1]
    · rw [show replace1 '.' ('\\' :: '.' :: []) (a :: as)
            = if a = '.' then ('\\' :: '.' :: []) ++ replace1 '.' ('\\' :: '.' :: []) as
              else a :: replace1 '.' ('\\' :: '.' :: []) as from rfl, if_neg ha]
      refine ⟨?_, ?_, ?_⟩ <;>
        (simp only [List.head?_cons]
         intro h
         injection h with h2
         subst h2
         revert hpa
         decide)

theorem parseReF_plain : ∀ (l : Str) (fuel : Nat),
    (∀ c ∈ l, plainChar c = true) →
    (replace1 '.' ('\\' :: '.' :: []) l).length ≤ fuel →
    parseReF fuel (replace1 '.' ('\\' :: '.' :: []) l) = some (litSeq l) := by
  intro l
  induction l with
  | nil =>
    intro fuel _ _
    cases fuel <;> rfl
  | cons c cs ih =>
    intro fuel hp hfuel
    have hpc : plainChar c = true := hp c (List.mem_cons_self c cs)
    have hpcs : ∀ d ∈ cs, plainChar d = true := fun d hd => hp d (List.mem_cons_of_mem c hd)
    obtain ⟨hs, hpl, hq⟩ := head_replace1_dots cs hpcs
    by_cases hc : c = '.'
    · subst hc
      rw [show replace1 '.' ('\\' :: '.' :: []) ('.' :: cs)
            = '\\' :: '.' :: replace1 '.' ('\\' :: '.' :: []) cs from by simp [replace1]]
      rw [show replace1 '.' ('\\' :: '.' :: []) ('.' :: cs)
            = '\\' :: '.' :: replace1 '.' ('\\' :: '.' :: []) cs from by simp [replace1]]
        at hfuel
    -- fuel is at least 1
      cases fuel with
      | zero => simp at hfuel
      | succ f =>
        have hia : ('.' : Char).isAlphanum = false := by decide
        have hatom : parseAtom ('\\' :: '.' :: replace1 '.' ('\\' :: '.' :: []) cs)
            = some (Reg.lit '.', replace1 '.' ('\\' :: '.' :: []) cs) := by
          simp [parseAtom, hia]
        rw [show parseReF (Nat.succ f) ('\\' :: '.' :: replace1 '.' ('\\' :: '.' :: []) cs)
              = match parseAtom ('\\' :: '.' :: replace1 '.' ('\\' :: '.' :: []) cs) with
                | none => none
                | some (a, r2) =>
                  if r2.head? = some '*' then
                    (parseReF f r2.tail).map (fun t => Reg.seq (Reg.star a) t)
                  else if r2.head? = some '+' then
                    (parseReF f r2.tail).map (fun t => Reg.seq (Reg.seq a (Reg.star a)) t)
                  else if r2.head? = some '?' then
                    (parseReF f r2.tail).map (fun t => Reg.seq (Reg.alt Reg.epsilon a) t)
                  else (parseReF f r2).map (fun t => Reg.seq a t) from rfl, hatom]
        simp only [if_neg hs, if_neg hpl, if_neg hq]
        rw [ih f hpcs (by simp at hfuel ⊢; omega)]
        rfl
    · rw [show replace1 '.' ('\\' :: '.' :: []) (c :: cs)
            = if c = '.' then ('\\' :: '.' :: []) ++ replace1 '.' ('\\' :: '.' :: []) cs
              else c :: replace1 '.' ('\\' :: '.' :: []) cs from rfl, if_neg hc]
      rw [show replace1 '.' ('\\' :: '.' :: []) (c :: cs)
            = if c = '.' then ('\\' :: '.' :: []) ++ replace1 '.' ('\\' :: '.' :: []) cs
              else c :: replace1 '.' ('\\' :: '.' :: []) cs from rfl, if_neg hc] at hfuel
      have hcontains : regexSpecialChars.contains c = false := by
        by_cases h : regexSpecialChars.contains c = true
        · rw [plainChar, h] at hpc
          exact absurd hpc (by decide)
        · simpa using h
      have h1 : c ≠ '\\' := fun h => by subst h; exact absurd hcontains (by decide)
      have h3 : c ≠ '[' := fun h => by subst h; exact absurd hcontains (by decide)
      have h4 : ¬(c = '(' ∨ c = ')' ∨ c = '|' ∨ c = '^' ∨ c = '$' ∨ c = '*' ∨ c = '+'
          ∨ c = '?') := by
        rintro (h | h | h | h | h | h | h | h) <;>
          (subst h; exact absurd hcontains (by decide))
      have hatom : parseAtom (c :: replace1 '.' ('\\' :: '.' :: []) cs)
          = some (Reg.lit c, replace1 '.' ('\\' :: '.' :: []) cs) := by
        simp [parseAtom, h1, hc, h3, h4]
      cases fuel with
      | zero => simp at hfuel
      | succ f =>
        rw [show parseReF (Nat.succ f) (c :: replace1 '.' ('\\' :: '.' :: []) cs)
              = match parseAtom (c :: replace1 '.' ('\\' :: '.' :: []) cs) with
                | none => none
                | some (a, r2) =>
                  if r2.head? = some '*' then
                    (parseReF f r2.tail).map (fun t => Reg.seq (Reg.star a) t)
                  else if r2.head? = some '+' then
                    (parseReF f r2.tail).map (fun t => Reg.seq (Reg.seq a (Reg.star a)) t)
                  else if r2.head? = some '?' then
                    (parseReF f r2.tail).map (fun t => Reg.seq (Reg.alt Reg.epsilon a) t)
                  else (parseReF f r2).map (fun t => Reg.seq a t) from rfl, hatom]
        simp only [if_neg hs, if_neg hpl, if_neg hq]
        rw [ih f hpcs (by simp at hfuel ⊢; omega)]
        rfl

/-- On patterns free of wildcards and regex metacharacters, `matchGlobPattern`
is exact string equality. -/
theorem matchGlobPattern_plain (path pattern : Str)
    (hp : ∀ c ∈ pattern, plainChar c = true) :
    matchGlobPattern path pattern = some (path == pattern) := by
  rw [matchGlobPattern, parseRe, globToRegex_plain pattern hp,
      parseReF_plain pattern _ hp (le_refl _)]
  simp [rmatch_litSeq]

/-! ### Order properties of the collation comparator -/

theorem keyLe_total : ∀ x y : List Nat, keyLe x y = true ∨ keyLe y x = true := by
  intro x
  induction x with
  | nil => intro y; exact Or.inl rfl
  | cons a as ih =>
    intro y
    cases y with
    | nil => exact Or.inr rfl
    | cons b bs =>
      by_cases hab : a < b
      · exact Or.inl (by simp [keyLe, hab])
      · by_cases hba : b < a
        · exact Or.inr (by simp [keyLe, hba])
        · have : a = b := by omega
          subst this
          rcases ih bs with h | h
          · exact Or.inl (by simp [keyLe, h])
          · exact Or.inr (by simp [keyLe, h])

theorem keyLe_trans : ∀ x y z : List Nat,
    keyLe x y = true → keyLe y z = true → keyLe x z = true := by
  intro x
  induction x with
  | nil => intro y z _ _; rfl
  | cons a as ih =>
    intro y z hxy hyz
    cases y with
    | nil => simp [keyLe] at hxy
    | cons b bs =>
      cases z with
      | nil => simp [keyLe] at hyz
      | cons c cs =>
        simp only [keyLe] at hxy hyz ⊢
        by_cases hab : a < b
        · by_cases hbc : b < c
          · rw [if_pos (Nat.lt_trans hab hbc)]
          · by_cases hcb : c < b
            · rw [if_neg hbc, if_pos hcb] at hyz
              exact absurd hyz (by decide)
            · have : b = c := by omega
              subst this
              rw [if_pos hab]
        · by_cases hba : b < a
          · rw [if_neg hab, if_pos hba] at hxy
            exact absurd hxy (by decide)
          · have : a = b := by omega
            subst this
            rw [if_neg (lt_irrefl a), if_neg (lt_irrefl a)] at hxy
            by_cases hac : a < c
            · rw [if_pos hac]
            · by_cases hca : c < a
              · rw [if_neg hac, if_pos hca] at hyz
                exact absurd hyz (by decide)
              · have : a = c := by omega
                subst this
                rw [if_neg (lt_irrefl a), if_neg (lt_irrefl a)] at hyz ⊢
                exact ih bs cs hxy hyz

instance : IsTotal Node nodeLe :=
  ⟨fun a b => keyLe_total (collKey a.name) (collKey b.name)⟩

instance : IsTrans Node nodeLe :=
  ⟨fun _ _ _ hab hbc => keyLe_trans _ _ _ hab hbc⟩

/-! ### Structural invariants of scan results -/

/-- Every directory node in the tree (the root included) has its children
sorted by the `localeCompare` comparator, and none of its subdirectory
children is empty. -/
inductive NodeOk : Node → Prop where
  | file : ∀ name path fullPath content tok ext,
      NodeOk (Node.file name path fullPath content tok ext)
  | dir : ∀ name path fullPath children,
      (∀ c ∈ children, NodeOk c) →
      (∀ c ∈ children, c.isDir = true → c.childrenOf ≠ []) →
      List.Pairwise nodeLe children →
      NodeOk (Node.dir name path fullPath children)

/-- No directory node strictly inside the tree is empty. -/
inductive NoEmptySubdirs : Node → Prop where
  | file : ∀ name path fullPath content tok ext,
      NoEmptySubdirs (Node.file name path fullPath content tok ext)
  | dir : ∀ name path fullPath children,
      (∀ c ∈ children, NoEmptySubdirs c) →
      (∀ c ∈ children, c.isDir = true → c.childrenOf ≠ []) →
      NoEmptySubdirs (Node.dir name path fullPath children)

/-- Every children list in the tree is sorted by the `localeCompare`
comparator. -/
inductive SortedByLocale : Node → Prop where
  | file : ∀ name path fullPath content tok ext,
      SortedByLocale (Node.file name path fullPath content tok ext)
  | dir : ∀ name path fullPath children,
      (∀ c ∈ children, SortedByLocale c) →
      List.Pairwise nodeLe children →
      SortedByLocale (Node.dir name path fullPath children)

theorem NodeOk.noEmptySubdirs : ∀ n : Node, NodeOk n → NoEmptySubdirs n := by
  intro n h
  induction h with
  | file name path fullPath content tok ext =>
    exact NoEmptySubdirs.file name path fullPath content tok ext
  | dir name path fullPath children h1 h2 h3 ih =>
    exact NoEmptySubdirs.dir name path fullPath children ih h2

theorem NodeOk.sortedByLocale : ∀ n : Node, NodeOk n → SortedByLocale n := by
  intro n h
  induction h with
  | file name path fullPath content tok ext =>
    exact SortedByLocale.file name path fullPath content tok ext
  | dir name path fullPath children h1 h2 h3 ih =>
    exact SortedByLocale.dir name path fullPath children ih h3

theorem nodeOk_mkDirNode (sc : Scanner) (dirPath : Str) (children : List Node)
    (h1 : ∀ c ∈ children, NodeOk c)
    (h2 : ∀ c ∈ children, c.isDir = true → c.childrenOf ≠ []) :
    NodeOk (mkDirNode sc dirPath children) := by
  refine NodeOk.dir _ _ _ _ ?_ ?_ ?_
  · intro c hc
    exact h1 c ((List.mem_insertionSort nodeLe).1 hc)
  · intro c hc
    exact h2 c ((List.mem_insertionSort nodeLe).1 hc)
  · exact List.sorted_insertionSort nodeLe children

theorem createFileNode_isFileNode {sc : Scanner} {p : Str} {data : FSFile} {n : Node}
    (h : createFileNode sc p data = some n) : NodeOk n ∧ n.isDir = false := by
  simp only [createFileNode] at h
  cases herr : (readFile (fun q => if q = p then some data else none) p
      { calculateTokens := some (sc.calculateTokens.getD false), maxSize := none }).error with
  | some e => rw [herr] at h; exact Option.noConfusion h
  | none =>
    rw [herr] at h
    injection h with h2
    subst h2
    exact ⟨NodeOk.file _ _ _ _ _ _, rfl⟩

/-- Every node emitted by the scanner's entry loop satisfies the structural
invariant, and every directory node among them is non-empty. -/
theorem scanList_ok (sc : Scanner) : ∀ (dirPath : Str) (es : FSEntryList) (l : List Node),
    scanList sc dirPath es = some l →
    ∀ n ∈ l, NodeOk n ∧ (n.isDir = true → n.childrenOf ≠ []) := by
  intro dirPath es
  induction dirPath, es using scanList.induct sc with
  | case1 dirPath =>
    intro l hl n hn
    rw [show scanList sc dirPath FSEntryList.nil = some [] from rfl] at hl
    injection hl with h
    subst h
    exact absurd hn (List.not_mem_nil n)
  | case2 dirPath name data es hig ih =>
    intro l hl
    simp only [scanList] at hl
    rw [if_pos hig] at hl
    exact ih l hl
  | case3 dirPath name data es hig hproc =>
    intro l hl
    simp only [scanList] at hl
    rw [if_neg hig, hproc] at hl
    exact Option.noConfusion hl
  | case4 dirPath name data es hig hproc ih =>
    intro l hl
    simp only [scanList] at hl
    rw [if_neg hig, hproc] at hl
    exact ih l hl
  | case5 dirPath name data es hig hproc hfn ih =>
    intro l hl
    simp only [scanList] at hl
    rw [if_neg hig, hproc, hfn] at hl
    exact ih l hl
  | case6 dirPath name data es hig hproc n1 hfn ih =>
    intro l hl
    simp only [scanList] at hl
    rw [if_neg hig, hproc, hfn] at hl
    cases hsl : scanList sc dirPath es with
    | none => rw [hsl] at hl; exact Option.noConfusion hl
    | some l' =>
      rw [hsl] at hl
      simp only [Option.map_some'] at hl
      injection hl with h2
      subst h2
      intro n hn
      rcases List.mem_cons.mp hn with h | h
      · subst h
        obtain ⟨hok, hdir⟩ := createFileNode_isFileNode hfn
        exact ⟨hok, fun hd => absurd (hdir ▸ hd) (by simp)⟩
      · exact ih l' hsl n h
  | case7 dirPath name subs es hig ih =>
    intro l hl
    simp only [scanList] at hl
    rw [if_pos hig] at hl
    exact ih l hl
  | case8 dirPath name subs es hig hsub ihsubs =>
    intro l hl
    simp only [scanList] at hl
    rw [if_neg hig, hsub] at hl
    exact Option.noConfusion hl
  | case9 dirPath name subs es hig subChildren hsub subNode hemp ihsubs ihes =>
    intro l hl
    simp only [scanList] at hl
    rw [if_neg hig, hsub] at hl
    simp only [Option.map_some'] at hl
    rw [if_pos hemp] at hl
    exact ihes l hl
  | case10 dirPath name subs es hig subChildren hsub subNode hemp ihsubs ihes =>
    intro l hl
    simp only [scanList] at hl
    rw [if_neg hig, hsub] at hl
    simp only [Option.map_some'] at hl
    rw [if_neg hemp] at hl
    cases hsl : scanList sc dirPath es with
    | none => rw [hsl] at hl; exact Option.noConfusion hl
    | some l' =>
      rw [hsl] at hl
      simp only [Option.map_some'] at hl
      injection hl with h2
      subst h2
      intro n hn
      rcases List.mem_cons.mp hn with h | h
      · subst h
        have hch := ihsubs subChildren hsub
        refine ⟨nodeOk_mkDirNode sc (joinPath dirPath name) subChildren
          (fun c hc => (hch c hc).1) (fun c hc => (hch c hc).2), ?_⟩
        intro _ hnil
        exact hemp (by rw [hnil]; rfl)
      · exact ihes l' hsl n h

theorem scanDirNode_ok (sc : Scanner) (dirPath : Str) (entries : FSEntryList)
    (node : Node) (h : scanDirNode sc dirPath entries = some node) : NodeOk node := by
  simp only [scanDirNode] at h
  cases hsl : scanList sc dirPath entries with
  | none => rw [hsl] at h; exact Option.noConfusion h
  | some l =>
    rw [hsl] at h
    simp only [Option.map_some'] at h
    injection h with h2
    subst h2
    have hall := scanList_ok sc dirPath entries l hsl
    exact nodeOk_mkDirNode _ _ _ (fun c hc => (hall c hc).1) (fun c hc => (hall c hc).2)

/-! ### Arithmetic of the token estimate -/

theorem calculateTokens_eq_ceil (content : Str) :
    (calculateTokens content : ℤ) = ⌈(content.length : ℚ) / 4⌉ := by
  have h4 : (0 : ℚ) < 4 := by norm_num
  rw [calculateTokens, eq_comm, Int.ceil_eq_iff]
  constructor
  · rw [lt_div_iff₀ h4, sub_mul, one_mul, sub_lt_iff_lt_add]
    exact_mod_cast (show ((content.length + 3) / 4) * 4 < content.length + 4 by omega)
  · rw [div_le_iff₀ h4]
    exact_mod_cast (show content.length ≤ ((content.length + 3) / 4) * 4 by omega)

/-! ### Helpers for the extension check on dotless paths -/

theorem jsLastIndexOf_of_not_mem (c : Char) (s : Str) (h : c ∉ s) :
    jsLastIndexOf c s = -1 := by
  rw [jsLastIndexOf]
  have hf : s.reverse.findIdx? (fun d => d = c) = none := by
    rw [List.findIdx?_eq_none_iff]
    intro x hx
    have hxs : x ∈ s := List.mem_reverse.mp hx
    have hxc : x ≠ c := fun he => h (he ▸ hxs)
    simp [hxc]
  rw [hf]

theorem drop_length_sub_one : ∀ (s : Str) (c : Char), s.getLast? = some c →
    s.drop (s.length - 1) = [c] := by
  intro s
  induction s with
  | nil => intro c h; exact Option.noConfusion h
  | cons a as ih =>
    intro c h
    cases as with
    | nil =>
      rw [show ([a] : Str).getLast? = some a from rfl] at h
      injection h with h2
      subst h2
      rfl
    | cons b bs =>
      rw [List.getLast?_cons_cons] at h
      have := ih c h
      simpa using this

/-! ### Concrete fixtures used by the claim theorems -/

/-- A `DirectoryScanner` constructed with all options at their defaults and
root directory `root`. -/
def defaultScanner : Scanner :=
  mkScanner { additionalIgnorePatterns := [], extendDefaults := true,
              additionalExtensions := [], extendExtensions := true,
              includePatterns := [], calculateTokens := none, rootDir := "root".data }

/-- A small readable file. -/
def okFile : FSFile := { size := 4, content := "abcd".data, readOk := true }

/-! ### Claim theorems -/

/-- C1: the spec (and the source comment `** matches anything`) say that `**`
matches across path separators while a single `*` does not, so
`src/deep/nested/x.ts` should match `src/**/*.ts`.  The code disagrees: the
later `*` substitution rewrites the `*` inside the `.*` just inserted for
`**`, so the translated regex is `^src/.[^/]*/[^/]*\.ts$`, which rejects
`src/deep/nested/x.ts` (it accepts only one directory level there, as the
third conjunct shows).  `test/x.ts` is rejected, as the spec says. -/
theorem c1_doubleStar_translation_bug :
    matchGlobPattern "src/deep/nested/x.ts".data "src/**/*.ts".data = some false
  ∧ matchGlobPattern "test/x.ts".data "src/**/*.ts".data = some false
  ∧ matchGlobPattern "src/ab/c.ts".data "src/**/*.ts".data = some true
  ∧ globToRegex "src/**/*.ts".data = "src/.[^/]*/[^/]*\\.ts".data := by
  refine ⟨by decide, by decide, by decide, by decide⟩

/-- C2: blank pattern input does yield exactly the single pattern `**/*`, but
that pattern is not a catch-all: the `**` translation bug turns it into the
regex `^.[^/]*/[^/]*$`, which rejects the separator-free path `a` and the
two-separator path `a/b/c.ts`. -/
theorem c2_blank_input_catchall_bug :
    parsePatternInput [] = [{ pattern := "**/*".data, isRegex := false }]
  ∧ parsePatternInput "  \n ".data = [{ pattern := "**/*".data, isRegex := false }]
  ∧ matchPattern "a".data { pattern := "**/*".data, isRegex := false } = some false
  ∧ matchPattern "a/b/c.ts".data { pattern := "**/*".data, isRegex := false } = some false := by
  refine ⟨by decide, by decide, by decide, by decide⟩

/-- C3: `readFile` never throws — each failure mode (missing path, size above
the ceiling, read fault) is returned in the `error` field, the oversized
case carrying both the actual and the maximum size; on success `error` is
empty.  During a scan, a file whose `createFileNode` fails is dropped and
the rest of the entry list is scanned unchanged. -/
theorem c3_readFile_structured_errors :
    (∀ (fsm : Str → Option FSFile) (filepath : Str) (opts : ReadOptions),
      (fsm filepath = none →
        readFile fsm filepath opts =
          { content := [], tokenCount := none,
            error := some (FileErr.doesNotExist filepath) })
      ∧ (∀ f : FSFile, fsm filepath = some f →
          f.size > opts.maxSize.getD DEFAULT_MAX_SIZE →
          readFile fsm filepath opts =
            { content := [], tokenCount := none,
              error := some (FileErr.sizeExceeded filepath f.size
                (opts.maxSize.getD DEFAULT_MAX_SIZE)) })
      ∧ (∀ f : FSFile, fsm filepath = some f →
          f.size ≤ opts.maxSize.getD DEFAULT_MAX_SIZE → f.readOk = false →
          readFile fsm filepath opts =
            { content := [], tokenCount := none,
              error := some (FileErr.readFault filepath) })
      ∧ (∀ f : FSFile, fsm filepath = some f →
          f.size ≤ opts.maxSize.getD DEFAULT_MAX_SIZE → f.readOk = true →
          (readFile fsm filepath opts).error = none
            ∧ (readFile fsm filepath opts).content = f.content))
  ∧ (∀ (sc : Scanner) (dirPath name : Str) (data : FSFile) (es : FSEntryList),
      shouldProcessFile sc (joinPath dirPath name) = some true →
      createFileNode sc (joinPath dirPath name) data = none →
      scanList sc dirPath (FSEntryList.cons (FSEntry.file name data) es)
        = scanList sc dirPath es) := by
  constructor
  · intro fsm filepath opts
    refine ⟨?_, ?_, ?_, ?_⟩
    · intro h
      simp [readFile, h]
    · intro f hf hsz
      simp [readFile, hf, hsz]
    · intro f hf hsz hro
      have hns : ¬f.size > opts.maxSize.getD DEFAULT_MAX_SIZE := by omega
      simp [readFile, hf, hns, hro]
    · intro f hf hsz hro
      have hns : ¬f.size > opts.maxSize.getD DEFAULT_MAX_SIZE := by omega
      simp [readFile, hf, hns, hro]
  · intro sc dirPath name data es hproc hfn
    by_cases hig : shouldIgnorePath (joinPath dirPath name) sc.ignorePatterns = true
    · rw [shouldProcessFile, if_pos hig] at hproc
      exact absurd hproc (by simp)
    · simp only [scanList]
      rw [if_neg hig, hproc, hfn]

/-- C3 witness: a 20 MiB file under the default 10 MiB ceiling produces the
typed size error naming both sizes. -/
theorem c3_readFile_structured_errors_witness :
    readFile (fun q => if q = "big.ts".data
        then some { size := 20971520, content := [], readOk := true } else none)
      "big.ts".data { calculateTokens := none, maxSize := none }
      = { content := [], tokenCount := none,
          error := some (FileErr.sizeExceeded "big.ts".data 20971520 10485760) } := by
  have h := (c3_readFile_structured_errors.1
      (fun q => if q = "big.ts".data
        then some { size := 20971520, content := [], readOk := true } else none)
      "big.ts".data { calculateTokens := none, maxSize := none }).2.1
      { size := 20971520, content := [], readOk := true } (by decide) (by decide)
  exact h

/-- C4: `shouldIgnorePath` is exact segment membership — true iff some
`/`-or-`\`-separated segment of the path is literally in the set; segments
that merely contain, extend, or glob-match an entry do not trigger it. -/
theorem c4_shouldIgnorePath_segment_membership :
    (∀ (p : Str) (S : List Str),
      shouldIgnorePath p S = true ↔ ∃ seg, seg ∈ splitSeps p ∧ seg ∈ S)
  ∧ shouldIgnorePath "a/node_modules/b.ts".data ["node_modules".data] = true
  ∧ shouldIgnorePath "a\\node_modules\\b.ts".data ["node_modules".data] = true
  ∧ shouldIgnorePath "node_modules_backup/x.ts".data ["node_modules".data] = false
  ∧ shouldIgnorePath "xnode_modules/x.ts".data ["node_modules".data] = false
  ∧ shouldIgnorePath "x.ts".data ["*.ts".data] = false := by
  refine ⟨?_, by decide, by decide, by decide, by decide, by decide⟩
  intro p S
  rw [shouldIgnorePath, List.any_eq_true]
  constructor
  · rintro ⟨seg, hseg, hc⟩
    exact ⟨seg, hseg, by simpa using hc⟩
  · rintro ⟨seg, hseg, hm⟩
    exact ⟨seg, hseg, by simpa using hm⟩

/-- C5: no `DirectoryNode` strictly inside a scan result is empty — a
subtree that filters away entirely is omitted, and scanning a tree holding
only `node_modules/pkg/index.js` (respectively only `sub/x.png`) under
default options yields a root directory node with zero children. -/
theorem c5_no_empty_subdirectories :
    (∀ (sc : Scanner) (dirPath : Str) (entries : FSEntryList) (node : Node),
      scanDirNode sc dirPath entries = some node → NoEmptySubdirs node)
  ∧ (scanDirNode defaultScanner "root".data
      (FSEntryList.cons (FSEntry.dir "node_modules".data
        (FSEntryList.cons (FSEntry.dir "pkg".data
          (FSEntryList.cons (FSEntry.file "index.js".data okFile) FSEntryList.nil))
          FSEntryList.nil)) FSEntryList.nil)).map
      (fun n => (n.isDir, n.childrenOf.isEmpty)) = some (true, true)
  ∧ (scanDirNode defaultScanner "root".data
      (FSEntryList.cons (FSEntry.dir "sub".data
        (FSEntryList.cons (FSEntry.file "x.png".data okFile) FSEntryList.nil))
        FSEntryList.nil)).map
      (fun n => (n.isDir, n.childrenOf.isEmpty)) = some (true, true) := by
  refine ⟨?_, by decide, by decide⟩
  intro sc dirPath entries node h
  exact NodeOk.noEmptySubdirs node (scanDirNode_ok sc dirPath entries node h)

/-- C5 witness: the invariant holds of a concrete scan result. -/
theorem c5_no_empty_subdirectories_witness :
    NoEmptySubdirs (mkDirNode defaultScanner "root".data []) :=
  c5_no_empty_subdirectories.1 defaultScanner "root".data FSEntryList.nil
    (mkDirNode defaultScanner "root".data []) rfl

/-- C6: the token estimate is exactly the ceiling of a quarter of the content
length — `0, 1, 1, 2` for lengths `0, 1, 4, 5` — and `readFile` reports it
in `tokenCount` when token counting is enabled. -/
theorem c6_token_estimate_ceil :
    (∀ content : Str, (calculateTokens content : ℤ) = ⌈(content.length : ℚ) / 4⌉)
  ∧ calculateTokens [] = 0
  ∧ calculateTokens (List.replicate 1 'a') = 1
  ∧ calculateTokens (List.replicate 4 'a') = 1
  ∧ calculateTokens (List.replicate 5 'a') = 2
  ∧ (∀ (f : FSFile) (p : Str), f.readOk = true → f.size ≤ DEFAULT_MAX_SIZE →
      (readFile (fun q => if q = p then some f else none) p
        { calculateTokens := some true, maxSize := none }).tokenCount
        = some (calculateTokens f.content)) := by
  refine ⟨calculateTokens_eq_ceil, by decide, by decide, by decide, by decide, ?_⟩
  intro f p hro hsz
  simp [readFile, hro]
  rw [if_neg (show ¬DEFAULT_MAX_SIZE < f.size by omega)]

/-- C6 witness: a four-character file read with token counting enabled
reports one token. -/
theorem c6_token_estimate_ceil_witness :
    (readFile (fun q => if q = "a.ts".data then some okFile else none) "a.ts".data
      { calculateTokens := some true, maxSize := none }).tokenCount = some 1 := by
  have h := c6_token_estimate_ceil.2.2.2.2.2 okFile "a.ts".data (by decide) (by decide)
  exact h.trans (by decide)

/-- C7 counterexample: scanning a directory holding `A.ts` and `a.ts` puts
`a.ts` first (the `localeCompare` comparator sorts lowercase before
uppercase), so the children are not in case-sensitive code-unit lexical
order: the adjacent pair violates `codeUnitLe`. -/
theorem c7_counterexample_locale_order :
    (scanDirNode defaultScanner "root".data
      (FSEntryList.cons (FSEntry.file "A.ts".data okFile)
        (FSEntryList.cons (FSEntry.file "a.ts".data okFile) FSEntryList.nil))).map
      (fun n => n.childrenOf.map Node.name) = some ["a.ts".data, "A.ts".data]
  ∧ codeUnitLe "a.ts".data "A.ts".data = false := by
  refine ⟨by decide, by decide⟩

/-- C7 (amended): in every `DirectoryNode` produced by a scan, the children
list is sorted by the locale-aware `localeCompare` comparator (modelled as
ICU root collation on ASCII), recursively. -/
theorem c7_children_sorted_by_locale (sc : Scanner) (dirPath : Str)
    (entries : FSEntryList) (node : Node)
    (h : scanDirNode sc dirPath entries = some node) : SortedByLocale node :=
  NodeOk.sortedByLocale node (scanDirNode_ok sc dirPath entries node h)

/-- C7 witness: the sortedness invariant holds of a concrete scan result. -/
theorem c7_children_sorted_by_locale_witness :
    SortedByLocale (mkDirNode defaultScanner "root".data []) :=
  c7_children_sorted_by_locale defaultScanner "root".data FSEntryList.nil
    (mkDirNode defaultScanner "root".data []) rfl

/-- C8 counterexample: the pattern `a+` contains none of `*`, `**`, `?`, yet
`matchGlobPattern` does not treat it as a literal: the `+` survives into
the regex as a quantifier, so `a+` fails to match itself and `aa` matches. -/
theorem c8_counterexample_regex_metachar :
    matchGlobPattern "a+".data "a+".data = some false
  ∧ matchGlobPattern "aa".data "a+".data = some true := by
  refine ⟨by decide, by decide⟩

/-- C8 (amended): for patterns free of `*`, `?` and of regex metacharacters
other than the dot (no `\ [ ] ( ) | ^ $ +` or braces), `matchGlobPattern`
is exact string equality. -/
theorem c8_plain_pattern_exact_match (pattern path : Str)
    (hp : ∀ c ∈ pattern, plainChar c = true) :
    matchGlobPattern path pattern = some (path == pattern)
      ∧ (matchGlobPattern path pattern = some true ↔ path = pattern) := by
  have h := matchGlobPattern_plain path pattern hp
  refine ⟨h, ?_⟩
  rw [h]
  constructor
  · intro h2
    injection h2 with h3
    exact eq_of_beq h3
  · intro h2
    subst h2
    simp

/-- C8 witness: a plain pattern matches exactly itself. -/
theorem c8_plain_pattern_exact_match_witness :
    matchGlobPattern "src/a.ts".data "src/a.ts".data = some true := by
  have h := (c8_plain_pattern_exact_match "src/a.ts".data "src/a.ts".data (by decide)).1
  exact h.trans (by decide)

/-- C9 counterexample: `createPattern "./"` produces the empty pattern
string, so patterns are not always non-empty. -/
theorem c9_counterexample_empty_pattern :
    (createPattern "./".data false).pattern = [] := by decide

/-- C9 (amended): `createPattern` strips a single leading `./` and preserves
the regex flag; the resulting pattern string is empty exactly when the
input is empty or exactly `./`, and `parsePatternInput` can accordingly
produce an empty pattern (from the line `,`). -/
theorem c9_strip_leading_dotslash :
    (∀ (s : Str) (b : Bool),
      ((createPattern s b).pattern = [] ↔ s = [] ∨ s = '.' :: '/' :: [])
      ∧ (∀ t : Str, s = '.' :: '/' :: t → (createPattern s b).pattern = t)
      ∧ (createPattern s b).isRegex = b)
  ∧ (parsePatternInput ",".data).map FilePattern.pattern = [[]] := by
  refine ⟨?_, by decide⟩
  intro s b
  refine ⟨?_, ?_, ?_⟩
  · unfold createPattern
    split
    next rest => simp
    next p hch =>
      constructor
      · exact fun h => Or.inl h
      · rintro (h | h)
        · exact h
        · exact (hch [] h).elim
  · intro t ht
    subst ht
    rfl
  · unfold createPattern
    split <;> rfl

/-- C9 witness: a leading `./` is stripped. -/
theorem c9_strip_leading_dotslash_witness :
    (createPattern "./x".data false).pattern = "x".data :=
  (c9_strip_leading_dotslash.1 "./x".data false).2.1 "x".data rfl

/-- C10: on a dotless path, `lastIndexOf('.') = -1` makes `slice(-1)` return
the final character, so `shouldIncludeFile` tests membership of that single
character: every dotless filename is excluded under a set whose entries all
start with a dot, while a set holding a bare single character admits
dotless paths ending in it. -/
theorem c10_dotless_extension_check :
    (∀ (p : Str) (S : List Str) (c : Char), '.' ∉ p → p.getLast? = some c →
      shouldIncludeFile p S = S.contains [c])
  ∧ (∀ (p : Str) (S : List Str), (∀ e ∈ S, e.head? = some '.') → '.' ∉ p →
      shouldIncludeFile p S = false)
  ∧ shouldIncludeFile "Makefile".data DEFAULT_INCLUDE_EXTENSIONS = false
  ∧ shouldIncludeFile "abc".data ["c".data] = true := by
  have key : ∀ (p : Str) (S : List Str) (c : Char), '.' ∉ p → p.getLast? = some c →
      shouldIncludeFile p S = S.contains [c] := by
    intro p S c hnd hl
    have hne : p ≠ [] := by
      intro h
      subst h
      exact Option.noConfusion hl
    rw [shouldIncludeFile, jsLastIndexOf_of_not_mem '.' p hnd, jsSlice,
        if_pos (by norm_num : (-1 : ℤ) < 0)]
    have hlen : 0 < p.length := List.length_pos.mpr hne
    have htn : ((p.length : ℤ) + -1).toNat = p.length - 1 := by omega
    rw [htn, drop_length_sub_one p c hl]
  refine ⟨key, ?_, by decide, by decide⟩
  intro p S hS hnd
  by_cases hp : p = []
  · subst hp
    rw [show shouldIncludeFile [] S = S.contains ([] : Str) from rfl]
    by_cases hc : S.contains ([] : Str) = true
    · have hm : ([] : Str) ∈ S := by simpa using hc
      exact absurd (hS [] hm) (fun h => Option.noConfusion h)
    · simpa using hc
  · have hlast : p.getLast? = some (p.getLast hp) := List.getLast?_eq_getLast_of_ne_nil hp
    rw [key p S (p.getLast hp) hnd hlast]
    by_cases hc2 : S.contains [p.getLast hp] = true
    · have hm : ([p.getLast hp] : Str) ∈ S := by simpa using hc2
      have hhd := hS [p.getLast hp] hm
      rw [show ([p.getLast hp] : Str).head? = some (p.getLast hp) from rfl] at hhd
      injection hhd with h3
      exact absurd (h3 ▸ List.getLast_mem hp) hnd
    · simpa using hc2

/-- C10 witness: the dotless name `README` is excluded under a dot-prefixed
extension set. -/
theorem c10_dotless_extension_check_witness :
    shouldIncludeFile "README".data [".md".data] = false :=
  c10_dotless_extension_check.2.1 "README".data [".md".data] (by decide) (by decide)
